import Mathlib

/-!
Verification of the voxel-world core of this repository against its design
document, as a shallow embedding in Lean 4.

Embedded source files:
* `common/src/world/chunk.rs` — `ChunkPos`, `Chunk`, `CompressedChunk` and the
  run-length codec (`from_chunk` / `to_chunk`), plus `get_block_at` /
  `set_block_at`.
* `server/src/lib.rs` — the tick-loop bookkeeping of `launch_server`: draining
  generated chunks into the world, the lighting queue, the streaming pass and
  the eviction pass.
* `src/registry.rs` — `Registry::register` / `get_id_by_name`.

Machine integers of the source (`u16` run lengths and counters, `u32` local
coordinates, `i64` chunk coordinates) are modelled as `Nat` / `Int`; at each
place where a counter could in principle wrap we note the invariant that keeps
it below the width bound, so no `% 2^w` is needed.  A Rust `panic!`
(out-of-bounds index) is modelled as `none` of an `Option` result.
-/

/-- Number of blocks along an axis of the chunk (`CHUNK_SIZE` in `chunk.rs`). -/
def CHUNK_SIZE : Nat := 32

/-- Total number of cells of a chunk, `CHUNK_SIZE^3 = 32768`, the bound of the
codec loops (`CHUNK_SIZE * CHUNK_SIZE * CHUNK_SIZE` in the source). -/
def CHUNK_VOLUME : Nat := CHUNK_SIZE * CHUNK_SIZE * CHUNK_SIZE

/-- Block identifiers (`BlockId` in the source, a machine integer; its values
are never computed with here, so `Nat` is a faithful carrier). -/
abbrev BlockId := Nat

/-- Position of a chunk in the world (`ChunkPos`, three `i64` fields). -/
structure ChunkPos where
  px : Int
  py : Int
  pz : Int
deriving DecidableEq, Repr

/-- A chunk: its position and the dense array of `CHUNK_VOLUME` block ids
(`Chunk` in `chunk.rs`; the `Vec<BlockId>` is modelled as a list). -/
structure Chunk where
  pos : ChunkPos
  data : List BlockId
deriving DecidableEq, Repr

/-- An RLE-compressed chunk (`CompressedChunk`): position plus the ordered
`(run_length, block_id)` pairs; run lengths are `u16` in the source. -/
structure CompressedChunk where
  pos : ChunkPos
  data : List (Nat × BlockId)
deriving DecidableEq, Repr

/-- The scan loop of `CompressedChunk::from_chunk`, processing the remaining
cells with state `(current_block_count, current_block)`: a cell equal to the
current block bumps the count, a different one emits the pending run and
restarts the count at `1` (the source sets it to `0` and immediately
increments).  After the last cell the pending run is emitted.  The count never
exceeds `CHUNK_VOLUME = 32768 < 2^16`, so the source's `u16` cannot wrap. -/
def fromChunkLoop : List BlockId → Nat → BlockId → List (Nat × BlockId)
  | [], count, current => [(count, current)]
  | b :: rest, count, current =>
    if b ≠ current then (count, current) :: fromChunkLoop rest 1 b
    else fromChunkLoop rest (count + 1) current

/-- Compress a chunk using RLE (`CompressedChunk::from_chunk`).  The source
reads `chunk.data[0]` and then `chunk.data[i]` for `i < CHUNK_VOLUME`; when the
vec is shorter than `CHUNK_VOLUME` this is an out-of-bounds panic, modelled as
`none`; when it is longer, only the first `CHUNK_VOLUME` cells are scanned. -/
def CompressedChunk.from_chunk (c : Chunk) : Option CompressedChunk :=
  if c.data.length < CHUNK_VOLUME then none
  else
    match c.data.take CHUNK_VOLUME with
    | [] => none
    | b :: rest => some ⟨c.pos, fromChunkLoop rest 1 b⟩

/-- The inner loop of `CompressedChunk::to_chunk`: write `len` copies of
`block` at indices `i, i+1, …` of the cell array (`data[(i + j) as usize] =
block`). -/
def writeRun : List BlockId → Nat → Nat → BlockId → List BlockId
  | data, _, 0, _ => data
  | data, i, len + 1, block => writeRun (data.set i block) (i + 1) len block

/-- The outer loop of `CompressedChunk::to_chunk`, with `i` the running cell
index.  The source writes each run's cells one by one and panics on the first
index `≥ CHUNK_VOLUME`; since the cells of a run are written at consecutive
indices starting at `i`, the run is written in full exactly when
`i + len ≤ CHUNK_VOLUME`, and otherwise the loop dies, modelled as `none`.
`i` starts at `0` and is only ever advanced to `i + len ≤ CHUNK_VOLUME`, so
the source's `u16` accumulator `i` cannot wrap. -/
def toChunkLoop : List (Nat × BlockId) → Nat → List BlockId → Option (List BlockId)
  | [], _, data => some data
  | (len, block) :: rest, i, data =>
    if i + len ≤ CHUNK_VOLUME then toChunkLoop rest (i + len) (writeRun data i len block)
    else none

/-- Recover the original chunk (`CompressedChunk::to_chunk`): start from
`CHUNK_VOLUME` zero cells (`data.resize(…, 0)`) and expand each run in order.
`none` models the out-of-bounds panic; the source has no error channel. -/
def CompressedChunk.to_chunk (cc : CompressedChunk) : Option Chunk :=
  (toChunkLoop cc.data 0 (List.replicate CHUNK_VOLUME 0)).map fun d => ⟨cc.pos, d⟩

/-- Sum of the run lengths of a compressed-data sequence. -/
def sumRuns (runs : List (Nat × BlockId)) : Nat := (runs.map (·.1)).sum

/-- Expansion of a run sequence into the cell list it denotes. -/
def expandRuns : List (Nat × BlockId) → List BlockId
  | [] => []
  | (len, b) :: rest => List.replicate len b ++ expandRuns rest

/-- Get block at a local position (`Chunk::get_block_at`); the source indexes
`data[px*CHUNK_SIZE*CHUNK_SIZE + py*CHUNK_SIZE + pz]`. -/
def Chunk.get_block_at (c : Chunk) (p : Nat × Nat × Nat) : BlockId :=
  c.data.getD (p.1 * CHUNK_SIZE * CHUNK_SIZE + p.2.1 * CHUNK_SIZE + p.2.2) 0

/-- Set block at a local position (`Chunk::set_block_at`). -/
def Chunk.set_block_at (c : Chunk) (p : Nat × Nat × Nat) (block : BlockId) : Chunk :=
  ⟨c.pos, c.data.set (p.1 * CHUNK_SIZE * CHUNK_SIZE + p.2.1 * CHUNK_SIZE + p.2.2) block⟩

/-! ### Codec lemmas -/

theorem expandRuns_fromChunkLoop (l : List BlockId) :
    ∀ count current, expandRuns (fromChunkLoop l count current) =
      List.replicate count current ++ l := by
  induction l with
  | nil => intro count current; simp [fromChunkLoop, expandRuns]
  | cons b rest ih =>
      intro count current
      by_cases h : b = current
      · subst h
        simp only [fromChunkLoop, ne_eq, not_true_eq_false, if_false, ih]
        rw [List.replicate_succ' _ _, List.append_assoc]
        simp
      · simp only [fromChunkLoop, ne_eq, h, not_false_eq_true, if_true, expandRuns, ih]
        simp

theorem sumRuns_fromChunkLoop (l : List BlockId) :
    ∀ count current, sumRuns (fromChunkLoop l count current) = count + l.length := by
  induction l with
  | nil => intro count current; simp [fromChunkLoop, sumRuns]
  | cons b rest ih =>
      intro count current
      by_cases h : b = current
      · subst h
        simp only [fromChunkLoop, ne_eq, not_true_eq_false, if_false, ih]
        simp; omega
      · simp only [fromChunkLoop, ne_eq, h, not_false_eq_true, if_true, sumRuns,
          List.map_cons, List.sum_cons] at *
        rw [ih]
        simp; omega

theorem pos_of_mem_fromChunkLoop (l : List BlockId) :
    ∀ count current, 0 < count →
      ∀ r ∈ fromChunkLoop l count current, 0 < r.1 := by
  induction l with
  | nil =>
      intro count current hc r hr
      simp [fromChunkLoop] at hr
      subst hr; exact hc
  | cons b rest ih =>
      intro count current hc r hr
      by_cases h : b = current
      · subst h
        simp only [fromChunkLoop, ne_eq, not_true_eq_false, if_false] at hr
        exact ih _ _ (Nat.succ_le_succ (Nat.zero_le _)) r hr
      · simp only [fromChunkLoop, ne_eq, h, not_false_eq_true, if_true,
          List.mem_cons] at hr
        rcases hr with hr | hr
        · subst hr; exact hc
        · exact ih _ _ Nat.one_pos r hr

theorem head_fromChunkLoop (l : List BlockId) :
    ∀ count current, ((fromChunkLoop l count current).head?).map Prod.snd = some current := by
  induction l with
  | nil => intro count current; simp [fromChunkLoop]
  | cons b rest ih =>
      intro count current
      by_cases h : b = current
      · subst h
        simp only [fromChunkLoop, ne_eq, not_true_eq_false, if_false]
        exact ih _ _
      · simp [fromChunkLoop, h]

theorem chain_fromChunkLoop (l : List BlockId) :
    ∀ count current,
      List.Chain' (fun a b : Nat × BlockId => a.2 ≠ b.2) (fromChunkLoop l count current) := by
  induction l with
  | nil => intro count current; simp [fromChunkLoop]
  | cons b rest ih =>
      intro count current
      by_cases h : b = current
      · subst h
        simp only [fromChunkLoop, ne_eq, not_true_eq_false, if_false]
        exact ih _ _
      · simp only [fromChunkLoop, ne_eq, h, not_false_eq_true, if_true]
        rcases hl : fromChunkLoop rest 1 b with _ | ⟨hd, tl⟩
        · simp
        · refine List.chain'_cons.2 ⟨?_, by rw [← hl]; exact ih _ _⟩
          have := head_fromChunkLoop rest 1 b
          rw [hl] at this
          simp only [List.head?_cons, Option.map_some', Option.some.injEq] at this
          simp only [this]
          exact fun hh => h hh.symm

theorem fromChunkLoop_replicate (n : Nat) (b : BlockId) :
    ∀ count, fromChunkLoop (List.replicate n b) count b = [(count + n, b)] := by
  induction n with
  | zero => intro count; simp [fromChunkLoop]
  | succ m ih =>
      intro count
      simp only [List.replicate_succ, fromChunkLoop, ne_eq, not_true_eq_false, if_false]
      rw [ih]
      have h : count + 1 + m = count + (m + 1) := by omega
      rw [h]

theorem writeRun_length (len : Nat) :
    ∀ data i b, (writeRun data i len b).length = List.length (α := BlockId) data := by
  induction len with
  | zero => intro data i b; simp [writeRun]
  | succ m ih =>
      intro data i b
      simp only [writeRun, ih, List.length_set]

theorem writeRun_eq (len : Nat) :
    ∀ (data : List BlockId) i b, i + len ≤ data.length →
      writeRun data i len b =
        data.take i ++ List.replicate len b ++ data.drop (i + len) := by
  induction len with
  | zero =>
      intro data i b _
      simp [writeRun, List.take_append_drop]
  | succ m ih =>
      intro data i b h
      have hi : i < data.length := by omega
      have h' : (i + 1) + m ≤ (data.set i b).length := by
        rw [List.length_set]; omega
      simp only [writeRun]
      rw [ih _ _ _ h']
      have hset : data.set i b = data.take i ++ b :: data.drop (i + 1) :=
        List.set_eq_take_cons_drop b hi
      have hlen : (data.take i).length = i := by
        rw [List.length_take]; omega
      rw [hset]
      have ht : (data.take i ++ b :: data.drop (i + 1)).take (i + 1) =
          data.take i ++ [b] := by
        have h2 := @List.take_append _ (data.take i) (b :: data.drop (i + 1)) 1
        rw [hlen] at h2
        rw [h2]
        simp
      have hd : (data.take i ++ b :: data.drop (i + 1)).drop (i + 1 + m) =
          data.drop (i + (m + 1)) := by
        have h2 := @List.drop_append _ (data.take i) (b :: data.drop (i + 1)) (m + 1)
        rw [hlen] at h2
        have e1 : i + 1 + m = i + (m + 1) := by omega
        rw [e1, h2, List.drop_succ_cons, List.drop_drop]
        have e2 : i + 1 + m = i + (m + 1) := by omega
        rw [e2]
      rw [ht, hd]
      simp [List.replicate_succ, List.append_assoc]

theorem toChunkLoop_some (runs : List (Nat × BlockId)) :
    ∀ (i : Nat) (data : List BlockId), data.length = CHUNK_VOLUME →
      i + sumRuns runs ≤ CHUNK_VOLUME →
      toChunkLoop runs i data =
        some (data.take i ++ expandRuns runs ++ data.drop (i + sumRuns runs)) := by
  induction runs with
  | nil =>
      intro i data _ _
      simp [toChunkLoop, sumRuns, expandRuns, List.take_append_drop]
  | cons r rest ih =>
      rcases r with ⟨len, b⟩
      intro i data hlen hsum
      have hs : sumRuns ((len, b) :: rest) = len + sumRuns rest := by
        simp [sumRuns]
      have hbound : i + len ≤ CHUNK_VOLUME := by omega
      simp only [toChunkLoop, hbound, if_true]
      have hlen' : (writeRun data i len b).length = CHUNK_VOLUME := by
        rw [writeRun_length]; exact hlen
      have hsum' : (i + len) + sumRuns rest ≤ CHUNK_VOLUME := by omega
      rw [ih _ _ hlen' hsum']
      rw [writeRun_eq len data i b (by omega)]
      have hA : (data.take i).length = i := by
        rw [List.length_take]; omega
      have hR : (List.replicate len b).length = len := List.length_replicate _ _
      have ht : (data.take i ++ List.replicate len b ++ data.drop (i + len)).take (i + len) =
          data.take i ++ List.replicate len b := by
        have h1 : i + len = (data.take i ++ List.replicate len b).length := by
          simp [hA, hR]
        rw [List.append_assoc, ← List.append_assoc, h1, List.take_left]
      have hd : (data.take i ++ List.replicate len b ++ data.drop (i + len)).drop
            (i + len + sumRuns rest) = data.drop (i + (len + sumRuns rest)) := by
        have h1 : i + len + sumRuns rest =
            (data.take i ++ List.replicate len b).length + sumRuns rest := by
          simp [hA, hR]
        rw [h1, List.drop_append, List.drop_drop]
        have : i + len + sumRuns rest = i + (len + sumRuns rest) := by omega
        rw [this]
      rw [ht, hd, hs]
      simp [expandRuns, List.append_assoc]

theorem toChunkLoop_none (runs : List (Nat × BlockId)) :
    ∀ (i : Nat) (data : List BlockId), i ≤ CHUNK_VOLUME →
      CHUNK_VOLUME < i + sumRuns runs →
      toChunkLoop runs i data = none := by
  induction runs with
  | nil =>
      intro i data hi hsum
      simp [sumRuns] at hsum
      omega
  | cons r rest ih =>
      rcases r with ⟨len, b⟩
      intro i data hi hsum
      have hs : sumRuns ((len, b) :: rest) = len + sumRuns rest := by
        simp [sumRuns]
      by_cases hb : i + len ≤ CHUNK_VOLUME
      · simp only [toChunkLoop, hb, if_true]
        exact ih _ _ hb (by omega)
      · simp only [toChunkLoop, hb, if_false]

theorem to_chunk_spec (cc : CompressedChunk) :
    cc.to_chunk =
      if sumRuns cc.data ≤ CHUNK_VOLUME then
        some ⟨cc.pos, expandRuns cc.data ++
          List.replicate (CHUNK_VOLUME - sumRuns cc.data) 0⟩
      else none := by
  by_cases h : sumRuns cc.data ≤ CHUNK_VOLUME
  · rw [CompressedChunk.to_chunk,
      toChunkLoop_some cc.data 0 _ (List.length_replicate _ _) (by omega)]
    simp [h, List.drop_replicate]
  · rw [CompressedChunk.to_chunk,
      toChunkLoop_none cc.data 0 _ (by omega) (by omega)]
    simp [h]

theorem mem_le_sumRuns (runs : List (Nat × BlockId)) :
    ∀ r ∈ runs, r.1 ≤ sumRuns runs := by
  intro r hr
  have : r.1 ∈ runs.map (·.1) := List.mem_map_of_mem _ hr
  exact List.single_le_sum (fun x _ => Nat.zero_le x) _ this

/-- The all-zero chunk at the origin, a well-formed concrete input. -/
def unifChunk : Chunk := ⟨⟨0, 0, 0⟩, List.replicate CHUNK_VOLUME 0⟩

/-- C1: for every chunk whose block array has length `CHUNK_VOLUME = 32768`,
`CompressedChunk::from_chunk` succeeds and `to_chunk` of the result returns the
very same chunk (same position, identical block array): the codec round-trips
on well-formed chunks. -/
theorem from_chunk_to_chunk_roundtrip (c : Chunk) (h : c.data.length = CHUNK_VOLUME) :
    ∃ e, CompressedChunk.from_chunk c = some e ∧ e.to_chunk = some c := by
  cases hd : c.data with
  | nil =>
      rw [hd] at h
      simp [CHUNK_VOLUME, CHUNK_SIZE] at h
  | cons b rest =>
      have hnlt : ¬ c.data.length < CHUNK_VOLUME := by omega
      have htake : c.data.take CHUNK_VOLUME = c.data := List.take_of_length_le (by omega)
      refine ⟨⟨c.pos, fromChunkLoop rest 1 b⟩, ?_, ?_⟩
      · rw [CompressedChunk.from_chunk, if_neg hnlt, htake, hd]
      · have hlen : rest.length + 1 = CHUNK_VOLUME := by
          rw [hd] at h; simpa using h
        have hsum : sumRuns (fromChunkLoop rest 1 b) = CHUNK_VOLUME := by
          rw [sumRuns_fromChunkLoop]; omega
        rw [to_chunk_spec]
        simp only [hsum, le_refl, if_true, Nat.sub_self, List.replicate_zero,
          List.append_nil, expandRuns_fromChunkLoop, List.replicate_one,
          List.singleton_append, ← hd]

/-- C1 witness: the round-trip theorem applied to the all-zero chunk. -/
theorem from_chunk_to_chunk_roundtrip_witness :
    ∃ e, CompressedChunk.from_chunk unifChunk = some e ∧ e.to_chunk = some unifChunk :=
  from_chunk_to_chunk_roundtrip unifChunk (by simp [unifChunk])

/-- C7: the run sequence produced by `from_chunk` on a well-formed chunk sums
to exactly `CHUNK_VOLUME`, has no zero-length run (and none longer than
`CHUNK_VOLUME`), has no two adjacent runs with the same block id (runs are
maximal), and on a uniform chunk it is exactly one run. -/
theorem from_chunk_runs_invariant (c : Chunk) (h : c.data.length = CHUNK_VOLUME) :
    ∃ e, CompressedChunk.from_chunk c = some e ∧
      sumRuns e.data = CHUNK_VOLUME ∧
      (∀ r ∈ e.data, 0 < r.1 ∧ r.1 ≤ CHUNK_VOLUME) ∧
      List.Chain' (fun a b : Nat × BlockId => a.2 ≠ b.2) e.data ∧
      (∀ bl, c.data = List.replicate CHUNK_VOLUME bl → e.data = [(CHUNK_VOLUME, bl)]) := by
  cases hd : c.data with
  | nil =>
      rw [hd] at h
      simp [CHUNK_VOLUME, CHUNK_SIZE] at h
  | cons b rest =>
      have hnlt : ¬ c.data.length < CHUNK_VOLUME := by omega
      have htake : c.data.take CHUNK_VOLUME = c.data := List.take_of_length_le (by omega)
      have hlen : rest.length + 1 = CHUNK_VOLUME := by
        rw [hd] at h; simpa using h
      have hsum : sumRuns (fromChunkLoop rest 1 b) = CHUNK_VOLUME := by
        rw [sumRuns_fromChunkLoop]; omega
      refine ⟨⟨c.pos, fromChunkLoop rest 1 b⟩, ?_, hsum, ?_, chain_fromChunkLoop rest 1 b, ?_⟩
      · rw [CompressedChunk.from_chunk, if_neg hnlt, htake, hd]
      · intro r hr
        exact ⟨pos_of_mem_fromChunkLoop rest 1 b Nat.one_pos r hr,
          hsum ▸ mem_le_sumRuns _ r hr⟩
      · intro bl hrep
        have hbl : b :: rest = List.replicate CHUNK_VOLUME bl := hrep
        have hV : CHUNK_VOLUME = (CHUNK_VOLUME - 1) + 1 := by
          simp [CHUNK_VOLUME, CHUNK_SIZE]
        rw [hV, List.replicate_succ] at hbl
        injection hbl with hb hrest
        have h1 : 1 + (CHUNK_VOLUME - 1) = CHUNK_VOLUME := by
          simp [CHUNK_VOLUME, CHUNK_SIZE]
        show fromChunkLoop rest 1 b = [(CHUNK_VOLUME, bl)]
        rw [hb, hrest, fromChunkLoop_replicate, h1]

/-- C7 witness: the invariant theorem applied to the all-zero chunk. -/
theorem from_chunk_runs_invariant_witness :
    ∃ e, CompressedChunk.from_chunk unifChunk = some e ∧
      sumRuns e.data = CHUNK_VOLUME ∧
      (∀ r ∈ e.data, 0 < r.1 ∧ r.1 ≤ CHUNK_VOLUME) ∧
      List.Chain' (fun a b : Nat × BlockId => a.2 ≠ b.2) e.data ∧
      (∀ bl, unifChunk.data = List.replicate CHUNK_VOLUME bl → e.data = [(CHUNK_VOLUME, bl)]) :=
  from_chunk_runs_invariant unifChunk (by simp [unifChunk])

/-- A malformed compressed chunk: a single run of length 1, so the run lengths
sum to 1, not `CHUNK_VOLUME`. -/
def shortCC : CompressedChunk := ⟨⟨0, 0, 0⟩, [(1, 5)]⟩

/-- C2 counterexample: on the malformed input `shortCC` (run lengths sum to 1,
not 32768) `to_chunk` does not fail at all — the source has no
`CorruptChunkData` error channel — it silently pads the remaining 32767 cells
with zeros and returns a chunk. -/
theorem to_chunk_silently_pads_counterexample :
    sumRuns shortCC.data ≠ CHUNK_VOLUME ∧
    shortCC.to_chunk = some ⟨⟨0, 0, 0⟩, 5 :: List.replicate 32767 0⟩ := by
  constructor
  · intro hcontra
    simp [shortCC, sumRuns, CHUNK_VOLUME, CHUNK_SIZE] at hcontra
  · rw [to_chunk_spec]
    have h1 : sumRuns shortCC.data = 1 := by simp [shortCC, sumRuns]
    have hle : sumRuns shortCC.data ≤ CHUNK_VOLUME := by
      rw [h1]; simp [CHUNK_VOLUME, CHUNK_SIZE]
    rw [if_pos hle, h1]
    have h2 : CHUNK_VOLUME - 1 = 32767 := by simp [CHUNK_VOLUME, CHUNK_SIZE]
    rw [h2]
    have h3 : expandRuns shortCC.data = [5] := by simp [shortCC, expandRuns]
    rw [h3]
    rfl

/-- C2 (amended): `to_chunk` never returns an error value.  If the run lengths
sum to at most `CHUNK_VOLUME` it succeeds, expanding the runs in order and
silently zero-padding every cell not covered by a run; if they sum to more
than `CHUNK_VOLUME` it panics with an out-of-bounds index (modelled `none`)
rather than reporting corruption to the caller. -/
theorem to_chunk_pads_or_panics (cc : CompressedChunk) :
    cc.to_chunk =
      if sumRuns cc.data ≤ CHUNK_VOLUME then
        some ⟨cc.pos, expandRuns cc.data ++
          List.replicate (CHUNK_VOLUME - sumRuns cc.data) 0⟩
      else none :=
  to_chunk_spec cc

/-! ### Registry (`src/registry.rs`) -/

/-- Error type of the registry (`RegistryError::KeyAlreadyExists { key }`). -/
inductive RegistryError where
  | KeyAlreadyExists (key : String)
deriving DecidableEq, Repr

/-- A way to sort elements by name (`Registry<T>` in `registry.rs`); the
`HashMap<String, u32>` is modelled as an association list (key-membership and
lookup are its only observations). -/
structure Registry (T : Type) where
  name_to_id : List (String × Nat)
  id_to_name : List String
  id_to_value : List T

/-- Key membership of the modelled hash map (`contains_key`). -/
def Registry.containsKey {T : Type} (r : Registry T) (name : String) : Bool :=
  r.name_to_id.any (fun e => e.1 == name)

/-- Lookup by name (`Registry::get_id_by_name`). -/
def Registry.get_id_by_name {T : Type} (r : Registry T) (name : String) : Option Nat :=
  (r.name_to_id.find? (fun e => e.1 == name)).map (·.2)

/-- The empty registry (`Default for Registry<T>`). -/
def Registry.default {T : Type} : Registry T := ⟨[], [], []⟩

/-- Registration (`Registry::register`): if the key exists, return the
`KeyAlreadyExists` error and leave the registry as it was (the source returns
`Err` before mutating anything); otherwise assign id `id_to_name.len()`, push
the name, insert the map entry and push the value.  The mutation of `&mut
self` is modelled by returning the new registry next to the `Result`. -/
def Registry.register {T : Type} (r : Registry T) (name : String) (value : T) :
    Except RegistryError Nat × Registry T :=
  if r.containsKey name then
    (Except.error (RegistryError.KeyAlreadyExists name), r)
  else
    let id := r.id_to_name.length
    (Except.ok id, ⟨(name, id) :: r.name_to_id, r.id_to_name ++ [name],
      r.id_to_value ++ [value]⟩)

theorem containsKey_iff_get_isSome {T : Type} (r : Registry T) (name : String) :
    r.containsKey name = (r.get_id_by_name name).isSome := by
  rw [Registry.containsKey, Registry.get_id_by_name]
  cases hf : r.name_to_id.find? (fun e => e.1 == name) with
  | none =>
      simp only [Option.map_none', Option.isSome_none]
      rw [← Bool.not_eq_true]
      intro hany
      rcases List.any_eq_true.1 hany with ⟨x, hx, hpx⟩
      have hsome : (r.name_to_id.find? (fun e => e.1 == name)).isSome = true :=
        List.find?_isSome.2 ⟨x, hx, hpx⟩
      rw [hf] at hsome
      simp at hsome
  | some e =>
      simp only [Option.map_some', Option.isSome_some]
      have hsome : (r.name_to_id.find? (fun e => e.1 == name)).isSome = true := by
        rw [hf]; rfl
      rcases List.find?_isSome.1 hsome with ⟨x, hx, hpx⟩
      exact List.any_eq_true.2 ⟨x, hx, hpx⟩

/-- C10: `register` errs with `KeyAlreadyExists` exactly when the name is
already registered, and then leaves the registry unchanged; on a fresh name it
returns the id `id_to_name.len()` (the number of previously registered
entries) and afterwards `get_id_by_name` finds exactly that id. -/
theorem register_spec {T : Type} (r : Registry T) (name : String) (value : T) :
    ((r.register name value).1 = Except.error (RegistryError.KeyAlreadyExists name)
        ↔ (r.get_id_by_name name).isSome = true)
    ∧ ((r.get_id_by_name name).isSome = true → (r.register name value).2 = r)
    ∧ ((r.get_id_by_name name).isSome = false →
        (r.register name value).1 = Except.ok r.id_to_name.length
        ∧ (r.register name value).2.get_id_by_name name = some r.id_to_name.length) := by
  by_cases h : r.containsKey name = true
  · have hs : (r.get_id_by_name name).isSome = true := by
      rw [← containsKey_iff_get_isSome]; exact h
    refine ⟨⟨fun _ => hs, fun _ => ?_⟩, fun _ => ?_, fun hf => ?_⟩
    · rw [Registry.register, if_pos h]
    · rw [Registry.register, if_pos h]
    · rw [hs] at hf; cases hf
  · have hs : (r.get_id_by_name name).isSome = false := by
      rw [← containsKey_iff_get_isSome]
      exact Bool.not_eq_true _ ▸ h
    have hb : r.containsKey name = false := by
      exact Bool.not_eq_true _ ▸ h
    refine ⟨⟨fun he => ?_, fun hcontra => ?_⟩, fun hcontra => ?_, fun _ => ⟨?_, ?_⟩⟩
    · rw [Registry.register, if_neg h] at he
      simp at he
    · rw [hs] at hcontra; cases hcontra
    · rw [hs] at hcontra; cases hcontra
    · rw [Registry.register, if_neg h]
    · rw [Registry.register, if_neg h]
      simp only [Registry.get_id_by_name, List.find?_cons, beq_self_eq_true,
        Option.map_some']

/-- C10 witness: registering a fresh name in the empty registry succeeds with
id `0`, and registering it again errs and leaves the registry unchanged. -/
theorem register_spec_witness :
    (((Registry.default (T := Nat)).register "stone" 7).1 =
        Except.error (RegistryError.KeyAlreadyExists "stone")
      ↔ ((Registry.default (T := Nat)).get_id_by_name "stone").isSome = true)
    ∧ (((Registry.default (T := Nat)).get_id_by_name "stone").isSome = true →
        ((Registry.default (T := Nat)).register "stone" 7).2 = Registry.default)
    ∧ (((Registry.default (T := Nat)).get_id_by_name "stone").isSome = false →
        ((Registry.default (T := Nat)).register "stone" 7).1 =
          Except.ok (Registry.default (T := Nat)).id_to_name.length
        ∧ ((Registry.default (T := Nat)).register "stone" 7).2.get_id_by_name "stone" =
          some (Registry.default (T := Nat)).id_to_name.length) :=
  register_spec Registry.default "stone" 7

/-! ### Block get/set (C9) -/

theorem linear_index_lt (x y z : Nat) (hx : x < CHUNK_SIZE) (hy : y < CHUNK_SIZE)
    (hz : z < CHUNK_SIZE) :
    x * CHUNK_SIZE * CHUNK_SIZE + y * CHUNK_SIZE + z < CHUNK_VOLUME := by
  rw [CHUNK_VOLUME]
  rw [CHUNK_SIZE] at *
  omega

theorem linear_index_inj (x y z x' y' z' : Nat) (hx : x < CHUNK_SIZE)
    (hy : y < CHUNK_SIZE) (hz : z < CHUNK_SIZE) (hx' : x' < CHUNK_SIZE)
    (hy' : y' < CHUNK_SIZE) (hz' : z' < CHUNK_SIZE)
    (h : x * CHUNK_SIZE * CHUNK_SIZE + y * CHUNK_SIZE + z =
      x' * CHUNK_SIZE * CHUNK_SIZE + y' * CHUNK_SIZE + z') :
    x = x' ∧ y = y' ∧ z = z' := by
  rw [CHUNK_SIZE] at *
  omega

/-- C9: after `set_block_at` at an in-range local position, `get_block_at`
reads back the written block there, every other in-range position reads the
value it had before, and the chunk's position field is untouched (distinct
in-range triples map to distinct linearized indices). -/
theorem set_block_at_get_block_at (c : Chunk) (x y z : Nat) (b : BlockId)
    (hlen : c.data.length = CHUNK_VOLUME)
    (hx : x < CHUNK_SIZE) (hy : y < CHUNK_SIZE) (hz : z < CHUNK_SIZE) :
    (c.set_block_at (x, y, z) b).get_block_at (x, y, z) = b
    ∧ (∀ x' y' z', x' < CHUNK_SIZE → y' < CHUNK_SIZE → z' < CHUNK_SIZE →
        (x', y', z') ≠ (x, y, z) →
        (c.set_block_at (x, y, z) b).get_block_at (x', y', z') =
          c.get_block_at (x', y', z'))
    ∧ (c.set_block_at (x, y, z) b).pos = c.pos := by
  refine ⟨?_, ?_, rfl⟩
  · have hidx : x * CHUNK_SIZE * CHUNK_SIZE + y * CHUNK_SIZE + z < c.data.length := by
      rw [hlen]; exact linear_index_lt x y z hx hy hz
    simp only [Chunk.set_block_at, Chunk.get_block_at,
      List.getD_eq_getElem?_getD, List.getElem?_set_self hidx, Option.getD_some]
  · intro x' y' z' hx' hy' hz' hne
    have hne' : x * CHUNK_SIZE * CHUNK_SIZE + y * CHUNK_SIZE + z ≠
        x' * CHUNK_SIZE * CHUNK_SIZE + y' * CHUNK_SIZE + z' := by
      intro heq
      rcases linear_index_inj x y z x' y' z' hx hy hz hx' hy' hz' heq with ⟨e1, e2, e3⟩
      exact hne (by rw [e1, e2, e3])
    simp only [Chunk.set_block_at, Chunk.get_block_at,
      List.getD_eq_getElem?_getD, List.getElem?_set_ne hne']

/-- C9 witness: writing block 7 at (1, 2, 3) of the all-zero chunk. -/
theorem set_block_at_get_block_at_witness :
    (unifChunk.set_block_at (1, 2, 3) 7).get_block_at (1, 2, 3) = 7
    ∧ (∀ x' y' z', x' < CHUNK_SIZE → y' < CHUNK_SIZE → z' < CHUNK_SIZE →
        (x', y', z') ≠ (1, 2, 3) →
        (unifChunk.set_block_at (1, 2, 3) 7).get_block_at (x', y', z') =
          unifChunk.get_block_at (x', y', z'))
    ∧ (unifChunk.set_block_at (1, 2, 3) 7).pos = unifChunk.pos :=
  set_block_at_get_block_at unifChunk 1 2 3 7 (by simp [unifChunk])
    (by simp [CHUNK_SIZE]) (by simp [CHUNK_SIZE]) (by simp [CHUNK_SIZE])

/-! ### Server tick loop (`server/src/lib.rs`)

The loop's collaborators that are not part of this repository's sources
(`World`, `RenderDistance`, `WorldGenerationWorker`) are modelled from the
spec; the loop bodies themselves are embedded from `launch_server`. -/

/-- Modelled from the spec: the World Store's chunk map (`world.chunks :
HashMap<ChunkPos, Chunk>`), as an association list; the loop observes it only
through key iteration, lookup, insertion and `retain`. -/
abbrev WorldChunks := List (ChunkPos × Chunk)

/-- Lookup of the World Store (`world.get_chunk(pos)`); modelled from the
spec: "`get(pos) -> Option<&Chunk>`". -/
def getChunk (w : WorldChunks) (p : ChunkPos) : Option Chunk :=
  (w.find? (fun e => e.1 == p)).map (·.2)

/-- Modelled from the spec: "`set(chunk)` inserts or replaces" the entry at
`chunk.pos` (`World::set_chunk` is not under the given sources). -/
def set_chunk (w : WorldChunks) (c : Chunk) : WorldChunks :=
  (c.pos, c) :: w.filter (fun e => !(e.1 == c.pos))

/-- The lighting bookkeeping of the tick loop: the dedup set
`update_lightning_chunks : HashSet<ChunkPos>` (modelled by its membership
list) and the FIFO `update_lightning_chunks_vec : VecDeque<ChunkPos>`. -/
structure LightState where
  pending : List ChunkPos
  queue : List ChunkPos
deriving DecidableEq, Repr

/-- The guarded enqueue used on chunk install: `if
!update_lightning_chunks.contains(c_pos) { insert; push_back }` — a no-op when
the position is already pending. -/
def enqueueLight (ls : LightState) (p : ChunkPos) : LightState :=
  if p ∈ ls.pending then ls else ⟨p :: ls.pending, ls.queue ++ [p]⟩

/-- Installing one generated chunk (the body of the drain loop under
`generating_chunks.contains`): insert it into the store, then — keyed on
whether `world.update_highest_opaque_block(pos)` reported a column-height
change, supplied here as the oracle `hc` since that method is not under the
given sources — walk the stored chunk keys and enqueue for relighting either
the same-or-lower 3×3 column sweep or the 3×3×3 neighborhood. -/
def installChunk (hc : ChunkPos → Bool) (w : WorldChunks) (ls : LightState)
    (c : Chunk) : WorldChunks × LightState :=
  let pos := c.pos
  let w' := set_chunk w c
  if hc pos then
    (w', (w'.map (·.1)).foldl (fun acc q =>
      if q.py ≤ pos.py ∧ |q.px - pos.px| ≤ 1 ∧ |q.pz - pos.pz| ≤ 1 then
        enqueueLight acc q
      else acc) ls)
  else
    (w', (w'.map (·.1)).foldl (fun acc q =>
      if |q.py - pos.py| ≤ 1 ∧ |q.px - pos.px| ≤ 1 ∧ |q.pz - pos.pz| ≤ 1 then
        enqueueLight acc q
      else acc) ls)

/-- The drain of `world_generator.get_processed_chunks()`: each result is
installed only when its position is still in `generating_chunks`; otherwise it
is dropped on the floor.  The source never mutates `generating_chunks` in this
loop, so the set is threaded through unchanged. -/
def drainResults (hc : ChunkPos → Bool) (results : List Chunk)
    (generating : List ChunkPos) (w : WorldChunks) (ls : LightState) :
    List ChunkPos × WorldChunks × LightState :=
  match results with
  | [] => (generating, w, ls)
  | c :: rest =>
    if c.pos ∈ generating then
      let r := installChunk hc w ls c
      drainResults hc rest generating r.1 r.2
    else
      drainResults hc rest generating w ls

/-- The per-tick lighting step: pop at most one position from the FIFO,
recompute its light (`world.update_light`, not under the given sources — the
recomputed positions are returned instead of mutating light data, which these
claims do not observe) and drop it from the dedup set. -/
def lightStep (ls : LightState) : LightState × List ChunkPos :=
  match ls.queue with
  | [] => (ls, [])
  | p :: rest => (⟨ls.pending.filter (fun q => !(q == p)), rest⟩, [p])

/-- The relighting condition of the install path, split on whether the
column's highest-opaque height changed: on a change, every key with the same
or lower `py` within one chunk in `px`/`pz`; otherwise the 3×3×3 neighborhood. -/
def relightCond (heightChanged : Bool) (center q : ChunkPos) : Prop :=
  if heightChanged then
    q.py ≤ center.py ∧ |q.px - center.px| ≤ 1 ∧ |q.pz - center.pz| ≤ 1
  else
    |q.py - center.py| ≤ 1 ∧ |q.px - center.px| ≤ 1 ∧ |q.pz - center.pz| ≤ 1

/-- The dedup-set/queue coupling of the lighting engine: the queue has no
duplicates and holds exactly the pending positions. -/
def LightInv (ls : LightState) : Prop :=
  ls.queue.Nodup ∧ ∀ p, p ∈ ls.pending ↔ p ∈ ls.queue

/-- Modelled from the spec: the generation worker's queued jobs, each a chunk
position with its current priority (`WorldGenerationWorker` is not under the
given sources).  Jobs already taken by a worker thread are no longer queued. -/
structure GenWorker where
  queue : List (ChunkPos × Int)
deriving DecidableEq, Repr

/-- Modelled from the spec: "`enqueue(job)`: adds a job at its current
priority if not already tracked; no-op if already queued"; the initial
priority is irrelevant here (it is overwritten by `set_priority`), taken as 0. -/
def GenWorker.enqueue_chunk (wk : GenWorker) (p : ChunkPos) : GenWorker :=
  if p ∈ wk.queue.map (·.1) then wk else ⟨wk.queue ++ [(p, 0)]⟩

/-- Modelled from the spec: "`dequeue(pos)`: removes a queued-but-not-yet-
started job". -/
def GenWorker.dequeue_chunk (wk : GenWorker) (p : ChunkPos) : GenWorker :=
  ⟨wk.queue.filter (fun e => !(e.1 == p))⟩

/-- Modelled from the spec: "`set_priority(pos, value)`: updates the ordering
key of a still-queued job". -/
def GenWorker.set_chunk_priority (wk : GenWorker) (p : ChunkPos) (prio : Int) : GenWorker :=
  ⟨wk.queue.map (fun e => if e.1 = p then (e.1, prio) else e)⟩

/-- Modelled from the spec: a connected player as the eviction pass sees it —
the chunk containing the camera position
(`BlockPos::from(player_pos).containing_chunk_pos()`) and the render-distance
visibility predicate `is_chunk_visible(player_pos, ·)`, both produced by code
not under the given sources. -/
structure PlayerView where
  chunkPos : ChunkPos
  visible : ChunkPos → Bool

/-- Modelled from the spec: "squared Euclidean in chunk space"
(`ChunkPos::squared_euclidian_distance`). -/
def sqDist (a b : ChunkPos) : Int :=
  (a.px - b.px) ^ 2 + (a.py - b.py) ^ 2 + (a.pz - b.pz) ^ 2

/-- The priority computed by the eviction pass for a retained position: the
source starts `min_distance` at `1_000_000_000` and folds `min` over the
squared distances to the players that see the position. -/
def minDistClamped (players : List PlayerView) (p : ChunkPos) : Int :=
  players.foldl
    (fun md pl => if pl.visible p then min md (sqDist p pl.chunkPos) else md)
    1000000000

/-- Visibility to at least one player, the `retain` tests of the eviction
pass. -/
def visibleAny (players : List PlayerView) (p : ChunkPos) : Bool :=
  players.any (fun pl => pl.visible p)

/-- The store eviction (`world.chunks.retain`): keep exactly the chunks
visible to at least one player. -/
def evictWorld (players : List PlayerView) (w : WorldChunks) : WorldChunks :=
  w.filter (fun e => visibleAny players e.1)

/-- The generating-set eviction (`generating_chunks.retain`): a position seen
by nobody is dropped and its job dequeued; one still seen is kept and its job
re-prioritized to the min-fold of squared distances. -/
def genRetain (players : List PlayerView) :
    List ChunkPos → GenWorker → List ChunkPos × GenWorker
  | [], wk => ([], wk)
  | p :: rest, wk =>
    if visibleAny players p then
      let r := genRetain players rest (wk.set_chunk_priority p (minDistClamped players p))
      (p :: r.1, r.2)
    else
      let r := genRetain players rest (wk.dequeue_chunk p)
      (r.1, r.2)

/-- The whole eviction phase of a tick (lines 172–198 of `lib.rs`): evict the
store, then prune the generating set, with the worker side effects. -/
def evictionPass (players : List PlayerView) (w : WorldChunks)
    (gen : List ChunkPos) (wk : GenWorker) :
    WorldChunks × List ChunkPos × GenWorker :=
  (evictWorld players w, genRetain players gen wk)

/-- The per-player streaming state: the generating set, the worker, the
player's `loaded_chunks` and the positions sent this pass (in order). -/
structure SendState where
  gen : List ChunkPos
  worker : GenWorker
  loadedChunks : List ChunkPos
  sent : List ChunkPos

/-- One step of the send loop (lines 150–164): a position already delivered is
skipped; one present in the store is sent and marked delivered; an absent one
is inserted into the generating set and enqueued only if the insert actually
happened (`HashSet::insert` returned true). -/
def sendStep (w : WorldChunks) (st : SendState) (cp : ChunkPos) : SendState :=
  if cp ∈ st.loadedChunks then st
  else
    match getChunk w cp with
    | some _ => { st with sent := st.sent ++ [cp], loadedChunks := st.loadedChunks ++ [cp] }
    | none =>
      if cp ∈ st.gen then st
      else { st with gen := st.gen ++ [cp], worker := st.worker.enqueue_chunk cp }

/-- The send loop over the player's render-distance enumeration
(`iterate_around_player`, supplied as the list `around` since `RenderDistance`
is not under the given sources). -/
def sendChunks (w : WorldChunks) (around : List ChunkPos) (st : SendState) : SendState :=
  around.foldl (sendStep w) st

/-! ### Lighting-queue lemmas -/

theorem enqueueLight_pending_iff (ls : LightState) (p q : ChunkPos) :
    q ∈ (enqueueLight ls p).pending ↔ q ∈ ls.pending ∨ q = p := by
  rw [enqueueLight]
  by_cases h : p ∈ ls.pending
  · rw [if_pos h]
    constructor
    · exact Or.inl
    · rintro (hq | rfl)
      · exact hq
      · exact h
  · rw [if_neg h]
    simp only [List.mem_cons]
    tauto

theorem enqueueLight_coupling (ls : LightState) (p : ChunkPos)
    (h : ∀ r, r ∈ ls.pending ↔ r ∈ ls.queue) :
    ∀ r, r ∈ (enqueueLight ls p).pending ↔ r ∈ (enqueueLight ls p).queue := by
  intro r
  by_cases hp : p ∈ ls.pending
  · rw [enqueueLight, if_pos hp]
    exact h r
  · rw [enqueueLight, if_neg hp]
    simp only [List.mem_cons, List.mem_append, List.mem_singleton, h r]
    tauto

theorem enqueueLight_queue_iff (ls : LightState) (p q : ChunkPos)
    (h : ∀ r, r ∈ ls.pending ↔ r ∈ ls.queue) :
    q ∈ (enqueueLight ls p).queue ↔ q ∈ ls.queue ∨ q = p := by
  by_cases hp : p ∈ ls.pending
  · rw [enqueueLight, if_pos hp]
    constructor
    · exact Or.inl
    · rintro (hq | rfl)
      · exact hq
      · exact (h _).1 hp
  · rw [enqueueLight, if_neg hp]
    simp [List.mem_append]

theorem enqueueLight_inv (ls : LightState) (p : ChunkPos) (h : LightInv ls) :
    LightInv (enqueueLight ls p) := by
  obtain ⟨hnd, hiff⟩ := h
  by_cases hp : p ∈ ls.pending
  · rw [enqueueLight, if_pos hp]
    exact ⟨hnd, hiff⟩
  · rw [enqueueLight, if_neg hp]
    have hpq : p ∉ ls.queue := fun hq => hp ((hiff p).2 hq)
    refine ⟨?_, ?_⟩
    · simp [List.nodup_append, hnd, hpq]
    · intro r
      simp only [List.mem_cons, List.mem_append, List.mem_singleton, hiff r]
      tauto

theorem foldl_enqueueLight_pending (cond : ChunkPos → Prop) [DecidablePred cond]
    (L : List ChunkPos) :
    ∀ (ls : LightState) (q : ChunkPos),
      q ∈ (L.foldl (fun acc r => if cond r then enqueueLight acc r else acc) ls).pending ↔
        q ∈ ls.pending ∨ (q ∈ L ∧ cond q) := by
  induction L with
  | nil => intro ls q; simp
  | cons a L ih =>
      intro ls q
      rw [List.foldl_cons]
      by_cases hca : cond a
      · rw [if_pos hca, ih, enqueueLight_pending_iff]
        simp only [List.mem_cons]
        constructor
        · rintro ((hp | rfl) | ⟨hL, hcq⟩)
          · exact Or.inl hp
          · exact Or.inr ⟨Or.inl rfl, hca⟩
          · exact Or.inr ⟨Or.inr hL, hcq⟩
        · rintro (hp | ⟨rfl | hL, hcq⟩)
          · exact Or.inl (Or.inl hp)
          · exact Or.inl (Or.inr rfl)
          · exact Or.inr ⟨hL, hcq⟩
      · rw [if_neg hca, ih]
        simp only [List.mem_cons]
        constructor
        · rintro (hp | ⟨hL, hcq⟩)
          · exact Or.inl hp
          · exact Or.inr ⟨Or.inr hL, hcq⟩
        · rintro (hp | ⟨rfl | hL, hcq⟩)
          · exact Or.inl hp
          · exact absurd hcq hca
          · exact Or.inr ⟨hL, hcq⟩

theorem foldl_enqueueLight_coupling (cond : ChunkPos → Prop) [DecidablePred cond]
    (L : List ChunkPos) :
    ∀ (ls : LightState), (∀ r, r ∈ ls.pending ↔ r ∈ ls.queue) →
      ∀ r, r ∈ (L.foldl (fun acc s => if cond s then enqueueLight acc s else acc) ls).pending ↔
        r ∈ (L.foldl (fun acc s => if cond s then enqueueLight acc s else acc) ls).queue := by
  induction L with
  | nil => intro ls h r; exact h r
  | cons a L ih =>
      intro ls h r
      rw [List.foldl_cons]
      by_cases hca : cond a
      · rw [if_pos hca]
        exact ih _ (enqueueLight_coupling ls a h) r
      · rw [if_neg hca]
        exact ih _ h r

theorem foldl_enqueueLight_queue (cond : ChunkPos → Prop) [DecidablePred cond]
    (L : List ChunkPos) :
    ∀ (ls : LightState), (∀ r, r ∈ ls.pending ↔ r ∈ ls.queue) →
      ∀ q, q ∈ (L.foldl (fun acc r => if cond r then enqueueLight acc r else acc) ls).queue ↔
        q ∈ ls.queue ∨ (q ∈ L ∧ cond q) := by
  induction L with
  | nil => intro ls _ q; simp
  | cons a L ih =>
      intro ls h q
      rw [List.foldl_cons]
      by_cases hca : cond a
      · rw [if_pos hca, ih _ (enqueueLight_coupling ls a h), enqueueLight_queue_iff _ _ _ h]
        simp only [List.mem_cons]
        constructor
        · rintro ((hp | rfl) | ⟨hL, hcq⟩)
          · exact Or.inl hp
          · exact Or.inr ⟨Or.inl rfl, hca⟩
          · exact Or.inr ⟨Or.inr hL, hcq⟩
        · rintro (hp | ⟨rfl | hL, hcq⟩)
          · exact Or.inl (Or.inl hp)
          · exact Or.inl (Or.inr rfl)
          · exact Or.inr ⟨hL, hcq⟩
      · rw [if_neg hca, ih _ h]
        simp only [List.mem_cons]
        constructor
        · rintro (hp | ⟨hL, hcq⟩)
          · exact Or.inl hp
          · exact Or.inr ⟨Or.inr hL, hcq⟩
        · rintro (hp | ⟨rfl | hL, hcq⟩)
          · exact Or.inl hp
          · exact absurd hcq hca
          · exact Or.inr ⟨hL, hcq⟩

theorem foldl_enqueueLight_inv (cond : ChunkPos → Prop) [DecidablePred cond]
    (L : List ChunkPos) :
    ∀ (ls : LightState), LightInv ls →
      LightInv (L.foldl (fun acc r => if cond r then enqueueLight acc r else acc) ls) := by
  induction L with
  | nil => intro ls h; exact h
  | cons a L ih =>
      intro ls h
      rw [List.foldl_cons]
      by_cases hca : cond a
      · rw [if_pos hca]
        exact ih _ (enqueueLight_inv ls a h)
      · rw [if_neg hca]
        exact ih _ h

instance (h : Bool) (c q : ChunkPos) : Decidable (relightCond h c q) := by
  unfold relightCond
  split <;> infer_instance

theorem installChunk_eq (hc : ChunkPos → Bool) (w : WorldChunks) (ls : LightState)
    (c : Chunk) :
    installChunk hc w ls c =
      (set_chunk w c,
        ((set_chunk w c).map (·.1)).foldl (fun acc q =>
          if relightCond (hc c.pos) c.pos q then enqueueLight acc q else acc) ls) := by
  cases hhc : hc c.pos
  all_goals
    simp only [installChunk, hhc, Bool.false_eq_true, if_false, if_true]
    congr 1

/-- C4: when a generated chunk `c` is installed, the pending-relight set (and,
given the set/queue coupling, the relight queue) gains exactly the
currently-stored positions of the relight neighborhood: the same-or-lower-y
3×3-column sweep when `update_highest_opaque_block` reported a height change,
and the 3×3×3 neighborhood of `c.pos` (which the freshly stored `c.pos` itself
satisfies) when it did not; already-pending positions stay pending. -/
theorem install_enqueues_relight (hc : ChunkPos → Bool) (w : WorldChunks)
    (ls : LightState) (c : Chunk)
    (hcoup : ∀ r, r ∈ ls.pending ↔ r ∈ ls.queue) :
    ∀ q, (q ∈ (installChunk hc w ls c).2.pending ↔
        q ∈ ls.pending ∨
          (q ∈ (set_chunk w c).map (·.1) ∧ relightCond (hc c.pos) c.pos q))
      ∧ (q ∈ (installChunk hc w ls c).2.queue ↔
        q ∈ ls.queue ∨
          (q ∈ (set_chunk w c).map (·.1) ∧ relightCond (hc c.pos) c.pos q)) := by
  intro q
  rw [installChunk_eq]
  exact ⟨foldl_enqueueLight_pending (relightCond (hc c.pos) c.pos) _ ls q,
    foldl_enqueueLight_queue (relightCond (hc c.pos) c.pos) _ ls hcoup q⟩

/-- An arbitrary chunk result whose data the bookkeeping claims never
inspect. -/
def resultChunk : Chunk := ⟨⟨0, 0, 0⟩, []⟩

/-- C4 witness: installing a chunk at the origin into an empty store with an
empty lighting queue, with the no-height-change oracle, observed at the
installed position itself. -/
theorem install_enqueues_relight_witness :
    ((⟨0, 0, 0⟩ : ChunkPos) ∈
        (installChunk (fun _ => false) [] ⟨[], []⟩ resultChunk).2.pending ↔
      (⟨0, 0, 0⟩ : ChunkPos) ∈ (⟨[], []⟩ : LightState).pending ∨
        ((⟨0, 0, 0⟩ : ChunkPos) ∈ (set_chunk [] resultChunk).map (·.1) ∧
          relightCond ((fun _ => false) resultChunk.pos) resultChunk.pos ⟨0, 0, 0⟩))
    ∧ ((⟨0, 0, 0⟩ : ChunkPos) ∈
        (installChunk (fun _ => false) [] ⟨[], []⟩ resultChunk).2.queue ↔
      (⟨0, 0, 0⟩ : ChunkPos) ∈ (⟨[], []⟩ : LightState).queue ∨
        ((⟨0, 0, 0⟩ : ChunkPos) ∈ (set_chunk [] resultChunk).map (·.1) ∧
          relightCond ((fun _ => false) resultChunk.pos) resultChunk.pos ⟨0, 0, 0⟩)) :=
  install_enqueues_relight (fun _ => false) [] ⟨[], []⟩ resultChunk (by simp) ⟨0, 0, 0⟩

/-- C8: enqueuing an already-pending position for relighting is a no-op,
enqueuing a position twice is the same as enqueuing it once, the lighting
invariant (queue without duplicates, holding exactly the pending positions) is
preserved by both enqueue and the per-tick step, and a tick recomputes the
light of at most one position. -/
theorem lighting_dedup_spec (ls : LightState) (p : ChunkPos) :
    (p ∈ ls.pending → enqueueLight ls p = ls)
    ∧ enqueueLight (enqueueLight ls p) p = enqueueLight ls p
    ∧ (LightInv ls → LightInv (enqueueLight ls p) ∧ LightInv (lightStep ls).1)
    ∧ (lightStep ls).2.length ≤ 1 := by
  refine ⟨fun hp => by rw [enqueueLight, if_pos hp], ?_, fun hinv => ⟨enqueueLight_inv ls p hinv, ?_⟩, ?_⟩
  · by_cases hp : p ∈ ls.pending
    · have h1 : enqueueLight ls p = ls := by rw [enqueueLight, if_pos hp]
      rw [h1]
      exact h1
    · have h2 : p ∈ (enqueueLight ls p).pending := by
        rw [enqueueLight_pending_iff]
        exact Or.inr rfl
      rw [enqueueLight, if_pos h2]
  · obtain ⟨hnd, hiff⟩ := hinv
    cases hq : ls.queue with
    | nil =>
        have h1 : lightStep ls = (ls, []) := by rw [lightStep, hq]
        rw [h1]
        exact ⟨hnd, hiff⟩
    | cons a rest =>
        have h1 : lightStep ls = (⟨ls.pending.filter (fun r => !(r == a)), rest⟩, [a]) := by
          rw [lightStep, hq]
        rw [h1]
        rw [hq] at hnd
        refine ⟨(List.nodup_cons.1 hnd).2, ?_⟩
        intro r
        simp only [List.mem_filter, Bool.not_eq_eq_eq_not, Bool.not_true, beq_eq_false_iff_ne,
          ne_eq]
        rw [hiff r, hq]
        simp only [List.mem_cons]
        constructor
        · rintro ⟨rfl | hr, hne⟩
          · exact absurd rfl hne
          · exact hr
        · intro hr
          exact ⟨Or.inr hr, fun hra => (List.nodup_cons.1 hnd).1 (hra ▸ hr)⟩
  · cases hq : ls.queue with
    | nil => rw [lightStep, hq]; simp
    | cons a rest => rw [lightStep, hq]; simp

/-! ### World-store and drain lemmas -/

theorem find?_filter_other_key (p k : ChunkPos) (h : ¬ k = p) :
    ∀ w : WorldChunks,
      List.find? (fun e => e.1 == p) (w.filter (fun e => !(e.1 == k))) =
        List.find? (fun e => e.1 == p) w := by
  intro w
  induction w with
  | nil => rfl
  | cons e rest ih =>
      by_cases he : e.1 = k
      · have h1 : (!(e.1 == k)) = false := by simp [he]
        have h2 : (e.1 == p) = false := by
          simp only [beq_eq_false_iff_ne, ne_eq, he]
          exact fun hh => h hh
        rw [List.filter_cons, h1]
        simp only [Bool.false_eq_true, if_false, ih, List.find?_cons, h2]
      · have h1 : (!(e.1 == k)) = true := by simp [he]
        rw [List.filter_cons, h1]
        simp only [if_true, List.find?_cons]
        cases hep : (e.1 == p) with
        | true => rfl
        | false => exact ih

theorem getChunk_set_chunk (w : WorldChunks) (c : Chunk) (p : ChunkPos) :
    getChunk (set_chunk w c) p = if c.pos = p then some c else getChunk w p := by
  by_cases h : c.pos = p
  · rw [if_pos h, getChunk, set_chunk]
    have hb : (c.pos == p) = true := by simp [h]
    simp only [List.find?_cons, hb, Option.map_some']
  · rw [if_neg h, getChunk, set_chunk]
    have hb : (c.pos == p) = false := by simp [h]
    simp only [List.find?_cons, hb]
    rw [find?_filter_other_key p c.pos h w]
    rfl

/-- C6: after draining the worker results of a tick, the store's entry at any
position is the last drained result at that position whose position was in the
generating set when drained (membership never changes during the drain), and
is unchanged from before the drain when every result there was stale. -/
theorem drain_installs_iff_still_generating (hc : ChunkPos → Bool)
    (results : List Chunk) :
    ∀ (generating : List ChunkPos) (w : WorldChunks) (ls : LightState) (p : ChunkPos),
      getChunk (drainResults hc results generating w ls).2.1 p =
        results.foldl
          (fun acc c => if c.pos = p ∧ c.pos ∈ generating then some c else acc)
          (getChunk w p) := by
  induction results with
  | nil => intro generating w ls p; rfl
  | cons c rest ih =>
      intro generating w ls p
      simp only [drainResults, List.foldl_cons]
      by_cases hmem : c.pos ∈ generating
      · rw [if_pos hmem, ih]
        have hw : (installChunk hc w ls c).1 = set_chunk w c := by rw [installChunk_eq]
        rw [hw, getChunk_set_chunk]
        by_cases hpos : c.pos = p
        · rw [if_pos hpos, if_pos ⟨hpos, hmem⟩]
        · rw [if_neg hpos, if_neg (fun hh => hpos hh.1)]
      · rw [if_neg hmem, ih, if_neg (fun hh => hmem hh.2)]

theorem drain_keeps_generating (hc : ChunkPos → Bool) (results : List Chunk) :
    ∀ (generating : List ChunkPos) (w : WorldChunks) (ls : LightState),
      (drainResults hc results generating w ls).1 = generating := by
  induction results with
  | nil => intro generating w ls; rfl
  | cons c rest ih =>
      intro generating w ls
      simp only [drainResults]
      by_cases hmem : c.pos ∈ generating
      · rw [if_pos hmem, ih]
      · rw [if_neg hmem, ih]

/-- C5 counterexample: a result for a position in the generating set is
drained and installed, yet the position is still in the generating set
afterwards — the drain loop never removes installed positions (the source has
no `generating_chunks.remove`). -/
theorem drain_leaves_generating_counterexample :
    getChunk (drainResults (fun _ => false) [resultChunk] [resultChunk.pos]
        [] ⟨[], []⟩).2.1 resultChunk.pos = some resultChunk
    ∧ resultChunk.pos ∈
      (drainResults (fun _ => false) [resultChunk] [resultChunk.pos] [] ⟨[], []⟩).1 := by
  constructor
  · rfl
  · decide

theorem sendChunks_gen_mem (w : WorldChunks) (around : List ChunkPos) :
    ∀ (st : SendState) (q : ChunkPos),
      q ∈ (sendChunks w around st).gen ↔
        q ∈ st.gen ∨ (q ∈ around ∧ q ∉ st.loadedChunks ∧ getChunk w q = none) := by
  induction around with
  | nil => intro st q; simp [sendChunks]
  | cons cp rest ih =>
      intro st q
      rw [sendChunks, List.foldl_cons, ← sendChunks]
      by_cases hload : cp ∈ st.loadedChunks
      · have hs : sendStep w st cp = st := by rw [sendStep, if_pos hload]
        rw [hs, ih]
        constructor
        · rintro (h | ⟨hr, hnl, hnone⟩)
          · exact Or.inl h
          · exact Or.inr ⟨List.mem_cons_of_mem _ hr, hnl, hnone⟩
        · rintro (h | ⟨hcr, hnl, hnone⟩)
          · exact Or.inl h
          · rcases List.mem_cons.1 hcr with rfl | hr
            · exact absurd hload hnl
            · exact Or.inr ⟨hr, hnl, hnone⟩
      · cases hw : getChunk w cp with
        | some ch =>
            have hs : sendStep w st cp =
                { st with sent := st.sent ++ [cp], loadedChunks := st.loadedChunks ++ [cp] } := by
              rw [sendStep, if_neg hload, hw]
            rw [hs, ih]
            constructor
            · rintro (h | ⟨hr, hnl, hnone⟩)
              · exact Or.inl h
              · exact Or.inr ⟨List.mem_cons_of_mem _ hr,
                  fun hq => hnl (List.mem_append.2 (Or.inl hq)), hnone⟩
            · rintro (h | ⟨hcr, hnl, hnone⟩)
              · exact Or.inl h
              · rcases List.mem_cons.1 hcr with rfl | hr
                · rw [hw] at hnone; cases hnone
                · refine Or.inr ⟨hr, ?_, hnone⟩
                  intro hq
                  rcases List.mem_append.1 hq with hq | hq
                  · exact hnl hq
                  · rcases List.mem_singleton.1 hq with rfl
                    rw [hw] at hnone; cases hnone
        | none =>
            by_cases hgen : cp ∈ st.gen
            · have hs : sendStep w st cp = st := by
                rw [sendStep, if_neg hload, hw, if_pos hgen]
              rw [hs, ih]
              constructor
              · rintro (h | ⟨hr, hnl, hnone⟩)
                · exact Or.inl h
                · exact Or.inr ⟨List.mem_cons_of_mem _ hr, hnl, hnone⟩
              · rintro (h | ⟨hcr, hnl, hnone⟩)
                · exact Or.inl h
                · rcases List.mem_cons.1 hcr with rfl | hr
                  · exact Or.inl hgen
                  · exact Or.inr ⟨hr, hnl, hnone⟩
            · have hs : sendStep w st cp =
                  { st with gen := st.gen ++ [cp], worker := st.worker.enqueue_chunk cp } := by
                rw [sendStep, if_neg hload, hw, if_neg hgen]
              rw [hs, ih]
              constructor
              · rintro (h | ⟨hr, hnl, hnone⟩)
                · rcases List.mem_append.1 h with h | h
                  · exact Or.inl h
                  · rcases List.mem_singleton.1 h with rfl
                    exact Or.inr ⟨List.mem_cons_self _ _, hload, hw⟩
                · exact Or.inr ⟨List.mem_cons_of_mem _ hr, hnl, hnone⟩
              · rintro (h | ⟨hcr, hnl, hnone⟩)
                · exact Or.inl (List.mem_append.2 (Or.inl h))
                · rcases List.mem_cons.1 hcr with rfl | hr
                  · exact Or.inl (List.mem_append.2 (Or.inr (List.mem_singleton.2 rfl)))
                  · exact Or.inr ⟨hr, hnl, hnone⟩

theorem sendChunks_gen_nodup (w : WorldChunks) (around : List ChunkPos) :
    ∀ st : SendState, st.gen.Nodup → (sendChunks w around st).gen.Nodup := by
  induction around with
  | nil => intro st h; exact h
  | cons cp rest ih =>
      intro st h
      rw [sendChunks, List.foldl_cons, ← sendChunks]
      apply ih
      by_cases hload : cp ∈ st.loadedChunks
      · have hs : sendStep w st cp = st := by rw [sendStep, if_pos hload]
        rw [hs]; exact h
      · cases hw : getChunk w cp with
        | some ch =>
            have hs : sendStep w st cp =
                { st with sent := st.sent ++ [cp], loadedChunks := st.loadedChunks ++ [cp] } := by
              rw [sendStep, if_neg hload, hw]
            rw [hs]; exact h
        | none =>
            by_cases hgen : cp ∈ st.gen
            · have hs : sendStep w st cp = st := by
                rw [sendStep, if_neg hload, hw, if_pos hgen]
              rw [hs]; exact h
            · have hs : sendStep w st cp =
                  { st with gen := st.gen ++ [cp], worker := st.worker.enqueue_chunk cp } := by
                rw [sendStep, if_neg hload, hw, if_neg hgen]
              rw [hs]
              simp [List.nodup_append, h, List.disjoint_singleton, hgen]

/-- C5 (amended): the generating set receives a position at most once — the
streaming loop inserts a position exactly when it is wanted, not yet
delivered, absent from the store and not already generating, preserving
freedom from duplicates — but it is NOT pruned when a completed chunk is
installed: the drain leaves the set unchanged, and a position leaves the set
only through the eviction pass. -/
theorem generating_set_discipline (hc : ChunkPos → Bool) (results : List Chunk)
    (generating : List ChunkPos) (w : WorldChunks) (ls : LightState)
    (around : List ChunkPos) (st : SendState) :
    (drainResults hc results generating w ls).1 = generating
    ∧ (∀ q, q ∈ (sendChunks w around st).gen ↔
        q ∈ st.gen ∨ (q ∈ around ∧ q ∉ st.loadedChunks ∧ getChunk w q = none))
    ∧ (st.gen.Nodup → (sendChunks w around st).gen.Nodup) :=
  ⟨drain_keeps_generating hc results generating w ls,
    fun q => sendChunks_gen_mem w around st q,
    fun h => sendChunks_gen_nodup w around st h⟩

/-! ### Eviction-pass lemmas -/

theorem map_fst_set_priority (k : ChunkPos) (v : Int) :
    ∀ l : List (ChunkPos × Int),
      (l.map (fun e => if e.1 = k then (e.1, v) else e)).map (·.1) = l.map (·.1) := by
  intro l
  induction l with
  | nil => rfl
  | cons e rest ih =>
      simp only [List.map_cons, ih]
      by_cases h : e.1 = k
      · rw [if_pos h]
      · rw [if_neg h]

theorem mem_set_chunk_priority (wk : GenWorker) (k : ChunkPos) (v : Int)
    (a : ChunkPos) (pr : Int) :
    (a, pr) ∈ (wk.set_chunk_priority k v).queue ↔
      (if a = k then (a ∈ wk.queue.map (·.1) ∧ pr = v) else (a, pr) ∈ wk.queue) := by
  rw [GenWorker.set_chunk_priority]
  by_cases hak : a = k
  · rw [if_pos hak]
    subst hak
    constructor
    · intro hmem
      rcases List.mem_map.1 hmem with ⟨⟨e1, e2⟩, he, heq⟩
      by_cases hek : e1 = a
      · rw [if_pos hek] at heq
        injection heq with hh1 hh2
        exact ⟨List.mem_map.2 ⟨(e1, e2), he, hh1⟩, hh2.symm⟩
      · rw [if_neg hek] at heq
        injection heq with hh1 hh2
        exact absurd hh1 hek
    · rintro ⟨hkeys, rfl⟩
      rcases List.mem_map.1 hkeys with ⟨⟨e1, e2⟩, he, he1⟩
      refine List.mem_map.2 ⟨(e1, e2), he, ?_⟩
      rw [if_pos he1, he1]
  · rw [if_neg hak]
    constructor
    · intro hmem
      rcases List.mem_map.1 hmem with ⟨⟨e1, e2⟩, he, heq⟩
      by_cases hek : e1 = k
      · rw [if_pos hek] at heq
        injection heq with hh1 hh2
        exact absurd (hh1 ▸ hek) hak
      · rw [if_neg hek] at heq
        exact heq ▸ he
    · intro hmem
      refine List.mem_map.2 ⟨(a, pr), hmem, ?_⟩
      rw [if_neg hak]

theorem mem_dequeue_chunk (wk : GenWorker) (k a : ChunkPos) (pr : Int) :
    (a, pr) ∈ (wk.dequeue_chunk k).queue ↔ ((a, pr) ∈ wk.queue ∧ ¬ a = k) := by
  rw [GenWorker.dequeue_chunk]
  rw [List.mem_filter]
  simp

theorem keys_dequeue_chunk (wk : GenWorker) (k a : ChunkPos) :
    a ∈ (wk.dequeue_chunk k).queue.map (·.1) ↔
      (a ∈ wk.queue.map (·.1) ∧ ¬ a = k) := by
  rw [GenWorker.dequeue_chunk]
  constructor
  · intro h
    rcases List.mem_map.1 h with ⟨⟨e1, e2⟩, he, he1⟩
    rcases List.mem_filter.1 he with ⟨he', hpred⟩
    have hne : ¬ e1 = k := by simpa using hpred
    exact ⟨List.mem_map.2 ⟨(e1, e2), he', he1⟩, he1 ▸ hne⟩
  · rintro ⟨hk, hne⟩
    rcases List.mem_map.1 hk with ⟨⟨e1, e2⟩, he, he1⟩
    refine List.mem_map.2 ⟨(e1, e2), List.mem_filter.2 ⟨he, ?_⟩, he1⟩
    simp only [Bool.not_eq_eq_eq_not, Bool.not_true, beq_eq_false_iff_ne, ne_eq]
    have he1' : e1 = a := he1
    rw [he1']
    exact hne

theorem genRetain_mem (players : List PlayerView) (gen : List ChunkPos) :
    ∀ (wk : GenWorker) (p : ChunkPos),
      p ∈ (genRetain players gen wk).1 ↔ (p ∈ gen ∧ visibleAny players p = true) := by
  induction gen with
  | nil => intro wk p; simp [genRetain]
  | cons g rest ih =>
      intro wk p
      simp only [genRetain]
      by_cases hv : visibleAny players g = true
      · rw [if_pos hv]
        constructor
        · intro h
          rcases List.mem_cons.1 h with rfl | h
          · exact ⟨List.mem_cons_self _ _, hv⟩
          · rcases (ih _ p).1 h with ⟨h1, h2⟩
            exact ⟨List.mem_cons_of_mem _ h1, h2⟩
        · rintro ⟨hmem, hvp⟩
          rcases List.mem_cons.1 hmem with rfl | h
          · exact List.mem_cons_self _ _
          · exact List.mem_cons_of_mem _ ((ih _ p).2 ⟨h, hvp⟩)
      · rw [if_neg hv]
        constructor
        · intro h
          rcases (ih _ p).1 h with ⟨h1, h2⟩
          exact ⟨List.mem_cons_of_mem _ h1, h2⟩
        · rintro ⟨hmem, hvp⟩
          rcases List.mem_cons.1 hmem with rfl | h
          · exact absurd hvp hv
          · exact (ih _ p).2 ⟨h, hvp⟩

theorem genRetain_queue (players : List PlayerView) (gen : List ChunkPos) :
    ∀ wk : GenWorker, gen.Nodup → ∀ (a : ChunkPos) (pr : Int),
      ((a, pr) ∈ (genRetain players gen wk).2.queue ↔
        (if a ∈ gen then
          (visibleAny players a = true ∧ a ∈ wk.queue.map (·.1)
            ∧ pr = minDistClamped players a)
        else (a, pr) ∈ wk.queue)) := by
  induction gen with
  | nil =>
      intro wk _ a pr
      simp [genRetain]
  | cons g rest ih =>
      intro wk hnd a pr
      have hg : g ∉ rest := (List.nodup_cons.1 hnd).1
      have hnd' : rest.Nodup := (List.nodup_cons.1 hnd).2
      simp only [genRetain]
      by_cases hv : visibleAny players g = true
      · rw [if_pos hv, ih _ hnd' a pr]
        by_cases hmem : a ∈ rest
        · rw [if_pos hmem, if_pos (List.mem_cons_of_mem _ hmem)]
          rw [GenWorker.set_chunk_priority]
          rw [map_fst_set_priority]
        · by_cases hag : a = g
          · rcases hag with rfl
            rw [if_neg hmem, if_pos (List.mem_cons_self _ _)]
            rw [mem_set_chunk_priority, if_pos rfl]
            constructor
            · rintro ⟨hk, rfl⟩
              exact ⟨hv, hk, rfl⟩
            · rintro ⟨_, hk, rfl⟩
              exact ⟨hk, rfl⟩
          · have hnc : a ∉ g :: rest := by
              intro hh
              rcases List.mem_cons.1 hh with rfl | hh
              · exact hag rfl
              · exact hmem hh
            rw [if_neg hmem, if_neg hnc]
            rw [mem_set_chunk_priority, if_neg hag]
      · rw [if_neg hv, ih _ hnd' a pr]
        by_cases hmem : a ∈ rest
        · rw [if_pos hmem, if_pos (List.mem_cons_of_mem _ hmem)]
          rw [keys_dequeue_chunk]
          constructor
          · rintro ⟨h1, ⟨h2, _⟩, h3⟩
            exact ⟨h1, h2, h3⟩
          · rintro ⟨h1, h2, h3⟩
            exact ⟨h1, ⟨h2, fun hag => hg (hag ▸ hmem)⟩, h3⟩
        · by_cases hag : a = g
          · rcases hag with rfl
            rw [if_neg hmem, if_pos (List.mem_cons_self _ _)]
            rw [mem_dequeue_chunk]
            constructor
            · rintro ⟨_, hne⟩
              exact absurd rfl hne
            · rintro ⟨hvv, _, _⟩
              exact absurd hvv hv
          · have hnc : a ∉ g :: rest := by
              intro hh
              rcases List.mem_cons.1 hh with rfl | hh
              · exact hag rfl
              · exact hmem hh
            rw [if_neg hmem, if_neg hnc]
            rw [mem_dequeue_chunk]
            constructor
            · rintro ⟨h1, _⟩
              exact h1
            · intro h1
              exact ⟨h1, hag⟩

theorem evictWorld_mem (players : List PlayerView) (w : WorldChunks) (p : ChunkPos) :
    p ∈ (evictWorld players w).map (·.1) ↔
      (p ∈ w.map (·.1) ∧ visibleAny players p = true) := by
  rw [evictWorld]
  constructor
  · intro h
    rcases List.mem_map.1 h with ⟨⟨p1, c⟩, hmem, hp1⟩
    rcases List.mem_filter.1 hmem with ⟨hw, hvis⟩
    refine ⟨List.mem_map.2 ⟨(p1, c), hw, hp1⟩, ?_⟩
    rw [← hp1]
    exact hvis
  · rintro ⟨h, hvp⟩
    rcases List.mem_map.1 h with ⟨⟨p1, c⟩, hw, hp1⟩
    refine List.mem_map.2 ⟨(p1, c), List.mem_filter.2 ⟨hw, ?_⟩, hp1⟩
    have hp1' : p1 = p := hp1
    show visibleAny players p1 = true
    rw [hp1']
    exact hvp

/-- C3 (amended): after the eviction phase of a tick, the store holds exactly
the previously stored positions visible to at least one connected player; the
generating set keeps exactly its members visible to someone; a retained
position still queued at the worker has its priority set to
`min 1_000_000_000 (minimum squared chunk distance over the players that see
it)` — the source's fold starts at `1_000_000_000`, so the priority is capped
there — and a dropped position's job is dequeued from the worker. -/
theorem eviction_pass_spec (players : List PlayerView) (w : WorldChunks)
    (gen : List ChunkPos) (wk : GenWorker) (hnd : gen.Nodup) :
    (∀ p, p ∈ (evictionPass players w gen wk).1.map (·.1) ↔
        (p ∈ w.map (·.1) ∧ visibleAny players p = true))
    ∧ (∀ p, p ∈ (evictionPass players w gen wk).2.1 ↔
        (p ∈ gen ∧ visibleAny players p = true))
    ∧ (∀ (p : ChunkPos) (pr : Int),
        ((p, pr) ∈ (evictionPass players w gen wk).2.2.queue ↔
          (if p ∈ gen then
            (visibleAny players p = true ∧ p ∈ wk.queue.map (·.1)
              ∧ pr = minDistClamped players p)
          else (p, pr) ∈ wk.queue))) :=
  ⟨fun p => evictWorld_mem players w p,
    fun p => genRetain_mem players gen wk p,
    fun p pr => genRetain_queue players gen wk hnd p pr⟩

/-- A player whose containing chunk is very far from the origin and who is
declared to see every chunk. -/
def farPlayer : PlayerView := ⟨⟨40000, 0, 0⟩, fun _ => true⟩

/-- The origin chunk position. -/
def originPos : ChunkPos := ⟨0, 0, 0⟩

/-- C3 counterexample: with one connected player to whom the origin chunk is
visible, after the eviction pass the store does NOT contain the (visible but
never generated) origin position — the pass only retains what was already
stored — and the retained origin job's priority is set to the cap
`1_000_000_000`, not to the minimum squared chunk distance `1_600_000_000`. -/
theorem eviction_pass_counterexample :
    visibleAny [farPlayer] originPos = true
    ∧ (evictionPass [farPlayer] [] [originPos] ⟨[(originPos, 5)]⟩).1 = []
    ∧ (evictionPass [farPlayer] [] [originPos] ⟨[(originPos, 5)]⟩).2.2.queue
        = [(originPos, 1000000000)]
    ∧ sqDist originPos farPlayer.chunkPos = 1600000000
    ∧ (1000000000 : Int) ≠ 1600000000 := by
  refine ⟨rfl, rfl, ?_, by decide, by decide⟩
  decide

/-- C3 witness: the eviction-pass theorem applied to one player, an empty
store, the singleton generating set and a one-job worker queue. -/
theorem eviction_pass_spec_witness :
    (∀ p, p ∈ (evictionPass [farPlayer] [] [originPos] ⟨[(originPos, 5)]⟩).1.map (·.1) ↔
        (p ∈ ([] : WorldChunks).map (·.1) ∧ visibleAny [farPlayer] p = true))
    ∧ (∀ p, p ∈ (evictionPass [farPlayer] [] [originPos] ⟨[(originPos, 5)]⟩).2.1 ↔
        (p ∈ [originPos] ∧ visibleAny [farPlayer] p = true))
    ∧ (∀ (p : ChunkPos) (pr : Int),
        ((p, pr) ∈ (evictionPass [farPlayer] [] [originPos] ⟨[(originPos, 5)]⟩).2.2.queue ↔
          (if p ∈ [originPos] then
            (visibleAny [farPlayer] p = true
              ∧ p ∈ (⟨[(originPos, 5)]⟩ : GenWorker).queue.map (·.1)
              ∧ pr = minDistClamped [farPlayer] p)
          else (p, pr) ∈ (⟨[(originPos, 5)]⟩ : GenWorker).queue))) :=
  eviction_pass_spec [farPlayer] [] [originPos] ⟨[(originPos, 5)]⟩ (by simp)
